import Mathlib

/-!
Shallow embedding of `parse_json.py` (VaultDict): the Concept-Glyph Map
(`FONTMAP`), the Atom Table construction (`compute_atoms`), the
Canonicalizer (`canonicalize`) and the memoized Word Resolver
(`create_word` / `compute_words`).

Python strings are modelled as `List Char`; Python dicts are modelled as
association lists where insertion prepends (so the first matching key is
the most recent assignment, matching dict overwrite semantics).
Categories are kept as the raw strings the Python source compares against
(`"atom"`, `"prefix"`, `"type"`, `"punctuation"`).  Fallible operations
(dict `KeyError`, string `IndexError`) return `Except`.
-/

set_option autoImplicit false

namespace VaultDict

/-- An entry of the atom dictionary: `Atom = namedtuple('Atom', ['name', 'type'])`.
The `type` field holds the raw category string (`x['atomType']` from the input,
or `'punctuation'` for the injected entries). -/
structure Atom where
  name : String
  type : String
deriving DecidableEq, Repr

/-- The atom dictionary `atoms`: Glyph (a `Char`) to `Atom`, as an association
list; the first matching key wins (most recent assignment). -/
abbrev AtomMap := List (Char × Atom)

/-- Dict lookup `atoms[c]` (first matching key, i.e. most recent assignment). -/
def amLookup : AtomMap → Char → Option Atom
  | [], _ => none
  | (k, v) :: rest, c => if k = c then some v else amLookup rest c

/-- Dict assignment `atoms[k] = v` (prepend; shadows any older binding of `k`). -/
def amInsert (k : Char) (v : Atom) (m : AtomMap) : AtomMap := (k, v) :: m

/-- The hardcoded Concept-Glyph Map `FONTMAP`, in source order:
rune concept names to single output glyphs. -/
def FONTMAP : List (String × Char) :=
  [("verb", '"'),
   ("of", '\''),
   ("property", '('),
   ("noun", ')'),
   ("primitive", ','),
   ("joinglyph2", '.'),
   ("0", '0'),
   ("1", '1'),
   ("2", '2'),
   ("3", '3'),
   ("4", '4'),
   ("5", '5'),
   ("6", '6'),
   ("7", '7'),
   ("8", '8'),
   ("9", '9'),
   ("joinglyph1", ':'),
   ("quality", ';'),
   ("water", '='),
   ("query", '?'),
   ("truth", 'a'),
   ("past_tense", 'b'),
   ("time", 'c'),
   ("beginning", 'd'),
   ("possession", 'e'),
   ("many", 'f'),
   ("say", 'g'),
   ("light", 'h'),
   ("high", 'i'),
   ("being", 'j'),
   ("creature", 'k'),
   ("life", 'l'),
   ("separate", 'm'),
   ("join", 'n'),
   ("circle", 'o'),
   ("knowledge", 'p'),
   ("food", 'q'),
   ("person", 'r'),
   ("motion", 's'),
   ("plant", 't'),
   ("place", 'u'),
   ("rock", 'v'),
   ("and", 'w'),
   ("not", 'x'),
   ("mineral", 'y'),
   ("heat", 'z')]

/-- Lookup `FONTMAP.get(name)` / `FONTMAP[name]`. -/
def fontmapLookup : List (String × Char) → String → Option Char
  | [], _ => none
  | (k, v) :: rest, s => if k = s then some v else fontmapLookup rest s

/-- ASCII lowercasing of one character. -/
def lowerChar (c : Char) : Char :=
  if 65 ≤ c.toNat ∧ c.toNat ≤ 90 then Char.ofNat (c.toNat + 32) else c

/-- Python `str.casefold()`; the concept and word names in the data are ASCII,
for which casefold agrees with ASCII lowercasing. -/
def casefold (s : String) : String := ⟨s.data.map lowerChar⟩

/-- Errors of the atom-table construction: `KeyError` from
`FONTMAP[x['name'].casefold()]` for an unknown declared name, and the
`RuntimeError('%s not found in data')` from the validation loop. -/
inductive CfgErr
  | nameError : String → CfgErr
  | missing : String → CfgErr
deriving DecidableEq, Repr

/-- A record of the input's `atoms` list: `{name, atomType}`. -/
structure AtomDecl where
  name : String
  atomType : String
deriving DecidableEq, Repr

/-- The dict comprehension
`{FONTMAP[x['name'].casefold()] : Atom(x['name'], x['atomType']) for x in atoms_list}`:
entries are inserted left to right (a later duplicate key shadows an earlier
one); an undeclared name raises `KeyError`. -/
def buildAtoms : List AtomDecl → AtomMap → Except CfgErr AtomMap
  | [], acc => .ok acc
  | d :: rest, acc =>
    match fontmapLookup FONTMAP (casefold d.name) with
    | none => .error (.nameError (casefold d.name))
    | some g => buildAtoms rest (amInsert g ⟨d.name, d.atomType⟩ acc)

/-- The three unconditional punctuation assignments of `compute_atoms`
(`FONTMAP['joinglyph1'] = ':'`, `FONTMAP['joinglyph2'] = '.'`,
`FONTMAP['primitive'] = ','`), in source order. -/
def injectPunct (m : AtomMap) : AtomMap :=
  amInsert ',' ⟨"primitive", "punctuation"⟩
    (amInsert '.' ⟨"joinGlyph2", "punctuation"⟩
      (amInsert ':' ⟨"joinGlyph1", "punctuation"⟩ m))

/-- The validation loop of `compute_atoms`: for each `(atom_name, atom)` of
`FONTMAP` in order, fail with the name if the glyph is not a key of `atoms`. -/
def checkCover : List (String × Char) → AtomMap → Except CfgErr AtomMap
  | [], m => .ok m
  | (n, g) :: rest, m =>
    if (amLookup m g).isSome then checkCover rest m else .error (.missing n)

/-- Embeds `compute_atoms(atoms_list)`. -/
def computeAtoms (atomsList : List AtomDecl) : Except CfgErr AtomMap :=
  match buildAtoms atomsList [] with
  | .error e => .error e
  | .ok m => checkCover FONTMAP (injectPunct m)

/-- Errors of `canonicalize`: `KeyError` from `atoms[atom]` for a glyph outside
the atom table, and the `IndexError` from `atom_string[0]` on an empty string. -/
inductive CanonErr
  | keyError : Char → CanonErr
  | indexError : CanonErr
deriving DecidableEq, Repr

/-- Whether a glyph's (effective) entry in the atom dictionary has category
`'punctuation'`; glyphs outside the dictionary are not punctuation. -/
def isPunct (atoms : AtomMap) (c : Char) : Bool :=
  match amLookup atoms c with
  | some a => a.type == "punctuation"
  | none => false

/-- Step 1 of `canonicalize`: `atom_string.translate(squash_dict)`, deleting
every glyph whose dictionary entry has category `'punctuation'`. -/
def squash (atoms : AtomMap) (s : List Char) : List Char :=
  s.filter (fun c => !isPunct atoms c)

/-- Step 2 of `canonicalize`: the adjacent-deduplication loop.  `current` is
the suppressed-glyph slot (Python's `current`, initially `None`): a
`'prefix'`/`'type'` glyph equal to `current` is dropped, otherwise it becomes
`current`; an `'atom'` glyph clears the slot; any other category leaves the
slot untouched.  A glyph outside the dictionary raises `KeyError`. -/
def dedup (atoms : AtomMap) : Option Char → List Char → Except CanonErr (List Char)
  | _, [] => .ok []
  | current, c :: rest =>
    match amLookup atoms c with
    | none => .error (.keyError c)
    | some a =>
      if a.type = "prefix" ∨ a.type = "type" then
        if current = some c then dedup atoms current rest
        else (dedup atoms (some c) rest).map (fun l => c :: l)
      else if a.type = "atom" then
        (dedup atoms none rest).map (fun l => c :: l)
      else
        (dedup atoms current rest).map (fun l => c :: l)

/-- The per-iteration state of the Step 3 insertion loop: Python's
`prev_atom`, `prev_type`, `needs_join` and `curr_len` variables. -/
structure LoopState where
  prevAtom : Char
  prevType : String
  needsJoin : Bool
  currLen : Nat
deriving DecidableEq, Repr

/-- One iteration of the Step 3 loop body for current glyph `c` of category
`t`: returns the glyphs emitted this iteration (any inserted joiner followed
by `c`) and the updated state.  The three rules are checked in source order:
(a) previous category `'type'` and current not `'type'` inserts `'.'`;
(b) else previous glyph `'\''` and `curr_len <= 4` inserts `'.'`;
(c) else current category `'prefix'` and previous not `'prefix'` inserts `':'`
when `needs_join` or the previous category was not `'atom'`, and sets
`needs_join` in either case. -/
def stepIns (st : LoopState) (c : Char) (t : String) : List Char × LoopState :=
  if st.prevType = "type" ∧ t ≠ "type" then
    (['.', c], ⟨c, t, st.needsJoin, st.currLen + 1⟩)
  else if st.prevAtom = '\'' ∧ st.currLen ≤ 4 then
    (['.', c], ⟨c, t, st.needsJoin, st.currLen + 1⟩)
  else if t = "prefix" ∧ st.prevType ≠ "prefix" then
    if st.needsJoin = true ∨ st.prevType ≠ "atom" then
      ([':', c], ⟨c, t, true, st.currLen + 1⟩)
    else
      ([c], ⟨c, t, true, st.currLen⟩)
  else
    ([c], ⟨c, t, st.needsJoin, st.currLen⟩)

/-- Step 3 of `canonicalize`: the core insertion loop over
`atom_string[1:]`, threading the `LoopState` and emitting via `stepIns`.
A glyph outside the dictionary raises `KeyError`. -/
def insLoop (atoms : AtomMap) (st : LoopState) : List Char → Except CanonErr (List Char)
  | [] => .ok []
  | c :: rest =>
    match amLookup atoms c with
    | none => .error (.keyError c)
    | some a =>
      let p := stepIns st c a.type
      (insLoop atoms p.2 rest).map (fun l => p.1 ++ l)

/-- Steps 1-4 of `canonicalize`: squash, record `orig_len`, deduplicate,
initialize the loop state from the first deduplicated glyph (`curr_len` is
the deduplicated length, `needs_join` iff its category is `'prefix'`), run
the insertion loop, then apply the short-word comma fixup
(`orig_len == 2` and the first result glyph's category `'prefix'`). -/
def canonCore (atoms : AtomMap) (s : List Char) : Except CanonErr (List Char) :=
  match dedup atoms none (squash atoms s) with
  | .error e => .error e
  | .ok deduped =>
    match deduped with
    | [] => .error .indexError
    | first :: rest =>
      match amLookup atoms first with
      | none => .error (.keyError first)
      | some a =>
        match insLoop atoms ⟨first, a.type, a.type == "prefix", deduped.length⟩ rest with
        | .error e => .error e
        | .ok body =>
          if (squash atoms s).length = 2 ∧ (amLookup atoms first).map Atom.type = some "prefix" then
            .ok ((first :: body) ++ [','])
          else
            .ok (first :: body)

/-- Embeds `canonicalize(atom_string, atoms)`: `canonCore` followed by Step 5,
the joiner pruning (`atom_string.replace(':', '')`, kept only when the pruned
length is at most 3). -/
def canonicalize (atoms : AtomMap) (s : List Char) : Except CanonErr (List Char) :=
  (canonCore atoms s).map (fun r =>
    let pruned := r.filter (fun c => !(c == ':'))
    if pruned.length ≤ 3 then pruned else r)

/-- Decidable equality of `Except` results, for evaluating the embedding at
concrete inputs. -/
instance {e a : Type} [DecidableEq e] [DecidableEq a] : DecidableEq (Except e a) := fun x y =>
  match x, y with
  | .error u, .error v =>
    if h : u = v then .isTrue (by rw [h]) else .isFalse (by intro hh; cases hh; exact h rfl)
  | .ok u, .ok v =>
    if h : u = v then .isTrue (by rw [h]) else .isFalse (by intro hh; cases hh; exact h rfl)
  | .error _, .ok _ => .isFalse (by intro hh; cases hh)
  | .ok _, .error _ => .isFalse (by intro hh; cases hh)

/-- A word of the shared word map:
`Word = namedtuple('Word', ['name', 'equivalences', 'components', 'atoms'])`,
where `atoms` is the resolved glyph string, or `none` for the unresolved
sentinel (Python's `None`). -/
structure Word where
  name : String
  equivalences : List String
  components : List String
  atoms : Option (List Char)
deriving DecidableEq, Repr

/-- The shared word map `words`: case-folded word name to `Word`, as an
association list; the first matching key wins (most recent assignment). -/
abbrev WordMap := List (String × Word)

/-- Dict lookup `words[k]` (first matching key, i.e. most recent assignment). -/
def wmLookup : WordMap → String → Option Word
  | [], _ => none
  | (k, v) :: rest, s => if k = s then some v else wmLookup rest s

/-- Dict assignment `words[k] = v` (prepend; shadows any older binding of `k`). -/
def wmInsert (k : String) (v : Word) (m : WordMap) : WordMap := (k, v) :: m

/-- Errors of word resolution: the `KeyError` from `words[part]` for a
component that is neither a `FONTMAP` concept nor a declared word (Python's
Lookup error naming the unresolved reference), a propagated `canonicalize`
error, and fuel exhaustion (the Python code would recurse forever on a cyclic
declaration set; the fuel parameter makes the embedding total). -/
inductive WordErr
  | lookupError : String → WordErr
  | canonError : CanonErr → WordErr
  | fuelOut : WordErr
deriving DecidableEq, Repr

/-- Result of a resolution step: the produced glyph string, the updated shared
word map, and two ghost logs used only by the theorems: `refs` records, for
every sub-word reference, the case-folded name and the glyph string the parent
received for it; `computed` records, in order, the case-folded name of every
word whose body (component expansion plus `canonicalize`) was actually run. -/
structure ResOut where
  glyphs : List Char
  words : WordMap
  refs : List (String × List Char)
  computed : List String
deriving DecidableEq, Repr

/-- The component loop of `create_word`, parametrized by the function `f` used
to resolve a sub-word (the recursive `create_word` call): for each part,
case-fold it; a `FONTMAP` concept contributes its glyph, otherwise the part
must be a key of the shared word map (else `KeyError`) and is resolved through
`f`, its glyph string appended and the reference recorded in the ghost `refs`
log.  The mutated map is threaded left to right. -/
def resolvePartsF (f : Word → WordMap → Except WordErr ResOut) :
    List String → WordMap → Except WordErr ResOut
  | [], words => .ok ⟨[], words, [], []⟩
  | part :: rest, words =>
    match fontmapLookup FONTMAP (casefold part) with
    | some ch =>
      match resolvePartsF f rest words with
      | .error e => .error e
      | .ok r => .ok ⟨ch :: r.glyphs, r.words, r.refs, r.computed⟩
    | none =>
      match wmLookup words (casefold part) with
      | none => .error (.lookupError (casefold part))
      | some subword =>
        match f subword words with
        | .error e => .error e
        | .ok r1 =>
          match resolvePartsF f rest r1.words with
          | .error e => .error e
          | .ok r2 =>
            .ok ⟨r1.glyphs ++ r2.glyphs, r2.words,
                 (casefold part, r1.glyphs) :: (r1.refs ++ r2.refs),
                 r1.computed ++ r2.computed⟩

/-- Embeds `create_word(word, words, atoms)`: return the memoized `word.atoms`
if present; otherwise resolve the components left to right (threading the
mutated shared map), canonicalize the concatenation, and store the result in
the map under `word.name.casefold()`.  `fuel` bounds the recursion depth
(the Python source performs no cycle check and would recurse forever on a
cyclic declaration set). -/
def createWord : Nat → Word → WordMap → AtomMap → Except WordErr ResOut
  | fuel, word, words, atoms =>
    match word.atoms with
    | some s => .ok ⟨s, words, [], []⟩
    | none =>
      match fuel with
      | 0 => .error .fuelOut
      | fuel + 1 =>
        match resolvePartsF (fun w ws => createWord fuel w ws atoms) word.components words with
        | .error e => .error e
        | .ok r =>
          match canonicalize atoms r.glyphs with
          | .error e => .error (.canonError e)
          | .ok s =>
            .ok ⟨s, wmInsert (casefold word.name) { word with atoms := some s } r.words,
                 r.refs, r.computed ++ [casefold word.name]⟩

/-- The component loop of `create_word` at a given recursion budget. -/
def resolveParts (fuel : Nat) (parts : List String) (words : WordMap) (atoms : AtomMap) :
    Except WordErr ResOut :=
  resolvePartsF (fun w ws => createWord fuel w ws atoms) parts words

/-- A record of the input's `words` list: `{name, equivalences?, components}`
(`equivalences` defaults to the empty list). -/
structure WordDecl where
  name : String
  equivalences : List String
  components : List String
deriving DecidableEq, Repr

/-- The dict comprehension of `compute_words`: build the shared word map with
every word's `atoms` field set to the unresolved sentinel, inserting left to
right (a later duplicate name shadows an earlier one). -/
def buildWordsAux : List WordDecl → WordMap → WordMap
  | [], acc => acc
  | d :: rest, acc =>
    buildWordsAux rest (wmInsert (casefold d.name) ⟨d.name, d.equivalences, d.components, none⟩ acc)

/-- The initial shared word map built by `compute_words`. -/
def buildWords (decls : List WordDecl) : WordMap := buildWordsAux decls []

/-- The iteration order of `for word in words.values()`: dict keys in first
insertion order (re-assigning an existing key keeps its position). -/
def dictKeys : List WordDecl → List String → List String
  | [], acc => acc
  | d :: rest, acc =>
    dictKeys rest (if casefold d.name ∈ acc then acc else acc ++ [casefold d.name])

/-- The loop of `compute_words`: visit each key in iteration order, fetch the
current value of the (mutated) map, and run `create_word` on it, accumulating
the ghost logs.  (A key vanishing from the map cannot happen; the `none`
branch is an unreachable error.) -/
def computeWordsAux (fuel : Nat) (keys : List String) (words : WordMap) (atoms : AtomMap) :
    Except WordErr (WordMap × List (String × List Char) × List String) :=
  match keys with
  | [] => .ok (words, [], [])
  | k :: rest =>
    match wmLookup words k with
    | none => .error (.lookupError k)
    | some word =>
      match createWord fuel word words atoms with
      | .error e => .error e
      | .ok r =>
        match computeWordsAux fuel rest r.words atoms with
        | .error e => .error e
        | .ok (w, rl, cl) => .ok (w, r.refs ++ rl, r.computed ++ cl)

/-- Embeds `compute_words(words_list, atoms)` (with ghost logs). -/
def computeWords (decls : List WordDecl) (atoms : AtomMap) (fuel : Nat) :
    Except WordErr (WordMap × List (String × List Char) × List String) :=
  computeWordsAux fuel (dictKeys decls []) (buildWords decls) atoms

/-- A concrete atom declaration list covering every `FONTMAP` concept that is
not one of the three injected punctuation entries; `past_tense` is declared
with category `'type'` and `knowledge` with category `'prefix'`. -/
def sampleDecls : List AtomDecl :=
  (["verb", "of", "property", "noun", "0", "1", "2", "3", "4", "5", "6", "7", "8", "9",
    "quality", "water", "query", "truth", "time", "beginning", "possession", "many", "say",
    "light", "high", "being", "creature", "life", "separate", "join", "circle", "food",
    "person", "motion", "plant", "place", "rock", "and", "not", "mineral", "heat"].map
      (fun n => AtomDecl.mk n "atom")) ++
  [⟨"past_tense", "type"⟩, ⟨"knowledge", "prefix"⟩]

/-- The atom table built by `compute_atoms` from `sampleDecls`. -/
def sampleAtomTable : AtomMap :=
  match computeAtoms sampleDecls with
  | .ok m => m
  | .error _ => []

/-- Inversion of `Except.map` producing an `ok`. -/
theorem except_map_ok {e a b : Type} (f : a → b) (x : Except e a) (y : b) :
    x.map f = .ok y ↔ ∃ z, x = .ok z ∧ y = f z := by
  cases x <;> simp [Except.map, eq_comm]

/-- Membership in the squashed string. -/
theorem mem_squash (atoms : AtomMap) (s : List Char) (c : Char) :
    c ∈ squash atoms s ↔ c ∈ s ∧ isPunct atoms c = false := by
  simp [squash, List.mem_filter]

/-- Squashing a string of non-punctuation glyphs is the identity. -/
theorem squash_eq_self (atoms : AtomMap) (l : List Char)
    (h : ∀ c ∈ l, isPunct atoms c = false) : squash atoms l = l := by
  induction l with
  | nil => rfl
  | cons c rest ih =>
    have hc := h c (by simp)
    simp only [squash, List.filter_cons, hc]
    exact congrArg (c :: ·) (ih (fun x hx => h x (by simp [hx])))

/-- Every glyph of a successful deduplication comes from the input string. -/
theorem dedup_mem (atoms : AtomMap) :
    ∀ (l : List Char) (cur : Option Char) (d : List Char),
      dedup atoms cur l = .ok d → ∀ c ∈ d, c ∈ l := by
  intro l
  induction l with
  | nil =>
    intro cur d h c hc
    simp only [dedup] at h
    cases h
    cases hc
  | cons x rest ih =>
    intro cur d h c hc
    simp only [dedup] at h
    split at h
    · cases h
    · rename_i a ha
      by_cases h1 : a.type = "prefix" ∨ a.type = "type"
      · rw [if_pos h1] at h
        by_cases h2 : cur = some x
        · rw [if_pos h2] at h
          exact List.mem_cons_of_mem _ (ih cur d h c hc)
        · rw [if_neg h2] at h
          rw [except_map_ok] at h
          obtain ⟨d', hd', rfl⟩ := h
          rcases List.mem_cons.mp hc with rfl | hc'
          · exact List.mem_cons_self _ _
          · exact List.mem_cons_of_mem _ (ih _ d' hd' c hc')
      · rw [if_neg h1] at h
        by_cases h2 : a.type = "atom"
        · rw [if_pos h2, except_map_ok] at h
          obtain ⟨d', hd', rfl⟩ := h
          rcases List.mem_cons.mp hc with rfl | hc'
          · exact List.mem_cons_self _ _
          · exact List.mem_cons_of_mem _ (ih _ d' hd' c hc')
        · rw [if_neg h2, except_map_ok] at h
          obtain ⟨d', hd', rfl⟩ := h
          rcases List.mem_cons.mp hc with rfl | hc'
          · exact List.mem_cons_self _ _
          · exact List.mem_cons_of_mem _ (ih _ d' hd' c hc')

/-- A successful deduplication with an empty suppressed slot keeps the first
glyph, and the first glyph's table entry exists. -/
theorem dedup_cons_none (atoms : AtomMap) (x : Char) (rest d : List Char)
    (h : dedup atoms none (x :: rest) = .ok d) :
    ∃ a d', amLookup atoms x = some a ∧ d = x :: d' := by
  simp only [dedup] at h
  split at h
  · cases h
  · rename_i a ha
    refine ⟨a, ?_⟩
    rw [ha]
    by_cases h1 : a.type = "prefix" ∨ a.type = "type"
    · rw [if_pos h1, if_neg (by simp)] at h
      rw [except_map_ok] at h
      obtain ⟨d', hd', rfl⟩ := h
      exact ⟨d', rfl, rfl⟩
    · rw [if_neg h1] at h
      by_cases h2 : a.type = "atom"
      · rw [if_pos h2, except_map_ok] at h
        obtain ⟨d', hd', rfl⟩ := h
        exact ⟨d', rfl, rfl⟩
      · rw [if_neg h2, except_map_ok] at h
        obtain ⟨d', hd', rfl⟩ := h
        exact ⟨d', rfl, rfl⟩

/-- The glyphs emitted by one loop iteration: a dot-joiner plus the glyph, a
colon-joiner plus the glyph, or the glyph alone. -/
theorem stepIns_fst (st : LoopState) (c : Char) (t : String) :
    (stepIns st c t).1 = ['.', c] ∨ (stepIns st c t).1 = [':', c] ∨
      (stepIns st c t).1 = [c] := by
  unfold stepIns
  split_ifs <;> simp

/-- Inversion of a successful insertion-loop step. -/
theorem insLoop_cons_ok (atoms : AtomMap) (st : LoopState) (c : Char) (rest body : List Char)
    (h : insLoop atoms st (c :: rest) = .ok body) :
    ∃ a body', amLookup atoms c = some a ∧
      insLoop atoms (stepIns st c a.type).2 rest = .ok body' ∧
      body = (stepIns st c a.type).1 ++ body' := by
  simp only [insLoop] at h
  split at h
  · cases h
  · rename_i a ha
    rw [except_map_ok] at h
    obtain ⟨body', hb, rfl⟩ := h
    exact ⟨a, body', ha, hb, rfl⟩

/-- The insertion loop only adds the dot- and colon-joiner glyphs: squashing
its output (when the inserted joiners are punctuation glyphs) gives back the
squash of its input. -/
theorem insLoop_squash (atoms : AtomMap) (hdot : isPunct atoms '.' = true)
    (hcolon : isPunct atoms ':' = true) :
    ∀ (l : List Char) (st : LoopState) (body : List Char),
      insLoop atoms st l = .ok body → squash atoms body = squash atoms l := by
  intro l
  induction l with
  | nil =>
    intro st body h
    simp only [insLoop] at h
    cases h
    rfl
  | cons c rest ih =>
    intro st body h
    obtain ⟨a, body', ha, hb, rfl⟩ := insLoop_cons_ok atoms st c rest body h
    have hrec := ih _ _ hb
    simp only [squash, List.filter_append] at *
    rw [hrec]
    rcases stepIns_fst st c a.type with h1 | h1 | h1 <;>
      simp [h1, List.filter_cons, hdot, hcolon] <;>
      cases hp : isPunct atoms c <;> simp [hp]

/-- The insertion loop never shortens the string. -/
theorem insLoop_length (atoms : AtomMap) :
    ∀ (l : List Char) (st : LoopState) (body : List Char),
      insLoop atoms st l = .ok body → l.length ≤ body.length := by
  intro l
  induction l with
  | nil => intro st body h; simp only [insLoop] at h; cases h; simp
  | cons c rest ih =>
    intro st body h
    obtain ⟨a, body', _, hb, rfl⟩ := insLoop_cons_ok atoms st c rest body h
    have hrec := ih _ _ hb
    rcases stepIns_fst st c a.type with h1 | h1 | h1 <;> simp [h1] <;> omega

/-- Counting non-colon glyphs: each iteration of the insertion loop emits at
least one non-colon glyph when the input glyphs are not colons. -/
theorem insLoop_filter_length (atoms : AtomMap) :
    ∀ (l : List Char) (st : LoopState) (body : List Char),
      (∀ c ∈ l, c ≠ ':') → insLoop atoms st l = .ok body →
      l.length ≤ (body.filter (fun c => !(c == ':'))).length := by
  intro l
  induction l with
  | nil => intro st body _ h; simp only [insLoop] at h; cases h; simp
  | cons c rest ih =>
    intro st body hnc h
    obtain ⟨a, body', _, hb, rfl⟩ := insLoop_cons_ok atoms st c rest body h
    have hrec := ih _ _ (fun x hx => hnc x (by simp [hx])) hb
    have hc : c ≠ ':' := hnc c (by simp)
    rcases stepIns_fst st c a.type with h1 | h1 | h1 <;>
      simp [h1, List.filter_append, List.filter_cons, hc] <;> omega

/-- The insertion loop succeeds whenever every glyph is in the atom table. -/
theorem insLoop_total (atoms : AtomMap) :
    ∀ (l : List Char) (st : LoopState),
      (∀ c ∈ l, (amLookup atoms c).isSome) →
      ∃ body, insLoop atoms st l = .ok body := by
  intro l
  induction l with
  | nil => intro st _; exact ⟨[], rfl⟩
  | cons c rest ih =>
    intro st hk
    have hc := hk c (by simp)
    cases ha : amLookup atoms c with
    | none => rw [ha] at hc; cases hc
    | some a =>
      obtain ⟨body', hb⟩ := ih (stepIns st c a.type).2 (fun x hx => hk x (by simp [hx]))
      refine ⟨(stepIns st c a.type).1 ++ body', ?_⟩
      simp only [insLoop, ha, hb, Except.map]

/-- Deduplication succeeds whenever every glyph is in the atom table. -/
theorem dedup_total (atoms : AtomMap) :
    ∀ (l : List Char) (cur : Option Char),
      (∀ c ∈ l, (amLookup atoms c).isSome) →
      ∃ d, dedup atoms cur l = .ok d := by
  intro l
  induction l with
  | nil => intro cur _; exact ⟨[], rfl⟩
  | cons c rest ih =>
    intro cur hk
    have hc := hk c (by simp)
    have hkr : ∀ x ∈ rest, (amLookup atoms x).isSome := fun x hx => hk x (by simp [hx])
    cases ha : amLookup atoms c with
    | none => rw [ha] at hc; cases hc
    | some a =>
      by_cases h1 : a.type = "prefix" ∨ a.type = "type"
      · by_cases h2 : cur = some c
        · obtain ⟨d, hd⟩ := ih cur hkr
          exact ⟨d, by simp only [dedup, ha, if_pos h1, if_pos h2, hd]⟩
        · obtain ⟨d, hd⟩ := ih (some c) hkr
          exact ⟨c :: d, by simp only [dedup, ha, if_pos h1, if_neg h2, hd, Except.map]⟩
      · by_cases h2 : a.type = "atom"
        · obtain ⟨d, hd⟩ := ih none hkr
          exact ⟨c :: d, by simp only [dedup, ha, if_neg h1, if_pos h2, hd, Except.map]⟩
        · obtain ⟨d, hd⟩ := ih cur hkr
          exact ⟨c :: d, by simp only [dedup, ha, if_neg h1, if_neg h2, hd, Except.map]⟩

/-- Inversion of a successful `canonCore` run into its intermediate values. -/
theorem canonCore_ok_inv (atoms : AtomMap) (s r : List Char)
    (h : canonCore atoms s = .ok r) :
    ∃ d first rest a body,
      dedup atoms none (squash atoms s) = .ok d ∧ d = first :: rest ∧
      amLookup atoms first = some a ∧
      insLoop atoms ⟨first, a.type, a.type == "prefix", d.length⟩ rest = .ok body ∧
      r = (if (squash atoms s).length = 2 ∧ (amLookup atoms first).map Atom.type = some "prefix"
           then (first :: body) ++ [','] else (first :: body)) := by
  unfold canonCore at h
  split at h
  · cases h
  · rename_i d hd
    split at h
    · cases h
    · rename_i first rest
      split at h
      · cases h
      · rename_i a ha
        split at h
        · cases h
        · rename_i body hbody
          refine ⟨first :: rest, first, rest, a, body, hd, rfl, ha, hbody, ?_⟩
          split at h
          · rename_i hcond
            cases h
            rw [if_pos hcond]
          · rename_i hcond
            cases h
            rw [if_neg hcond]

/-- Inversion of a successful `canonicalize` run: the pre-pruning result and
the pruning decision. -/
theorem canonicalize_ok_inv (atoms : AtomMap) (s out : List Char)
    (h : canonicalize atoms s = .ok out) :
    ∃ r, canonCore atoms s = .ok r ∧
      out = (if (r.filter (fun c => !(c == ':'))).length ≤ 3
             then r.filter (fun c => !(c == ':')) else r) := by
  unfold canonicalize at h
  rw [except_map_ok] at h
  obtain ⟨r, hr, rfl⟩ := h
  exact ⟨r, hr, rfl⟩

/-- Claim C2: in Step 3 of `canonicalize` the three insertion rules are checked
in the fixed order a, b, c and only the first matching rule fires: whenever the
previous emitted glyph's category is `'type'` and the current glyph's category
is not `'type'`, a dot-joiner `'.'` is inserted before the current glyph (with
`curr_len` incremented and `needs_join` untouched) and no colon-joiner is
inserted at that position — the hypotheses place no constraint on the current
category, so this holds in particular when it is `'prefix'`. -/
theorem claim_C2_rule_priority (atoms : AtomMap) (st : LoopState) (c : Char) (a : Atom)
    (rest : List Char) (hc : amLookup atoms c = some a)
    (hprev : st.prevType = "type") (hcur : a.type ≠ "type") :
    insLoop atoms st (c :: rest) =
      (insLoop atoms ⟨c, a.type, st.needsJoin, st.currLen + 1⟩ rest).map
        (fun l => '.' :: c :: l) := by
  have hstep : stepIns st c a.type = (['.', c], ⟨c, a.type, st.needsJoin, st.currLen + 1⟩) := by
    unfold stepIns
    rw [if_pos ⟨hprev, hcur⟩]
  simp only [insLoop, hc, hstep]
  rfl

/-- Witness for C2: a concrete Type-to-Prefix transition receives a dot-joiner
and no colon-joiner. -/
theorem claim_C2_witness :
    insLoop sampleAtomTable ⟨'b', "type", false, 2⟩ ['p'] =
      (insLoop sampleAtomTable ⟨'p', "prefix", false, 3⟩ []).map
        (fun l => '.' :: 'p' :: l) :=
  claim_C2_rule_priority sampleAtomTable ⟨'b', "type", false, 2⟩ 'p'
    ⟨"knowledge", "prefix"⟩ [] (by decide) rfl (by decide)

/-- Claim C3: the 'of'-window rule with live-updated length.  First conjunct:
in `canonicalize`, the Step 3 loop is started with `curr_len` equal to the
length of the de-duplicated string.  Second conjunct: at a position where rule
(a) does not apply, a dot-joiner is inserted before the current glyph exactly
when the previous glyph is the apostrophe and the running `curr_len` is at
most 4.  Third conjunct: each iteration increases `curr_len` by exactly the
number of joiners it inserts, so earlier insertions shrink the rule-(b) window
for later glyphs. -/
theorem claim_C3_of_window :
    (∀ (atoms : AtomMap) (s r : List Char), canonCore atoms s = .ok r →
      ∃ d first rest a body,
        dedup atoms none (squash atoms s) = .ok d ∧ d = first :: rest ∧
        amLookup atoms first = some a ∧
        insLoop atoms ⟨first, a.type, a.type == "prefix", d.length⟩ rest = .ok body) ∧
    (∀ (st : LoopState) (c : Char) (t : String), ¬(st.prevType = "type" ∧ t ≠ "type") →
      ((stepIns st c t).1 = ['.', c] ↔ st.prevAtom = '\'' ∧ st.currLen ≤ 4)) ∧
    (∀ (st : LoopState) (c : Char) (t : String),
      (stepIns st c t).2.currLen = st.currLen + ((stepIns st c t).1.length - 1)) := by
  refine ⟨?_, ?_, ?_⟩
  · intro atoms s r h
    obtain ⟨d, first, rest, a, body, hd, hcons, ha, hloop, _⟩ := canonCore_ok_inv atoms s r h
    exact ⟨d, first, rest, a, body, hd, hcons, ha, hloop⟩
  · intro st c t hnotA
    unfold stepIns
    rw [if_neg hnotA]
    by_cases hb : st.prevAtom = '\'' ∧ st.currLen ≤ 4
    · rw [if_pos hb]
      simp [hb]
    · rw [if_neg hb]
      constructor
      · intro hcontra
        exfalso
        revert hcontra
        split_ifs <;> intro hcontra <;>
          simp [show (':' : Char) ≠ '.' by decide] at hcontra
      · intro hc
        exact absurd hc hb
  · intro st c t
    unfold stepIns
    split_ifs <;> simp

/-- Witness for C3: with the previous glyph the apostrophe and `curr_len = 3`,
rule (b) fires and emits a dot-joiner. -/
theorem claim_C3_witness :
    (stepIns ⟨'\'', "atom", false, 3⟩ 'z' "atom").1 = ['.', 'z'] :=
  (claim_C3_of_window.2.1 ⟨'\'', "atom", false, 3⟩ 'z' "atom" (by decide)).mpr (by decide)

/-- Claim C4: pruning invariant.  Every successful `canonicalize` output comes
from the pre-pruning result by Step 5's rule (colon-free replacement exactly
when the colon-free string has length at most 3), and consequently an output
whose colon-free form has length at most 3 contains no colon-joiner at all. -/
theorem claim_C4_pruning (atoms : AtomMap) (s out : List Char)
    (h : canonicalize atoms s = .ok out) :
    ((out.filter (fun c => !(c == ':'))).length ≤ 3 →
      out = out.filter (fun c => !(c == ':'))) ∧
    (∃ r, canonCore atoms s = .ok r ∧
      out = (if (r.filter (fun c => !(c == ':'))).length ≤ 3
             then r.filter (fun c => !(c == ':')) else r)) := by
  obtain ⟨r, hr, hout⟩ := canonicalize_ok_inv atoms s out h
  refine ⟨?_, r, hr, hout⟩
  intro hlen
  by_cases hc : (r.filter (fun c => !(c == ':'))).length ≤ 3
  · rw [hout, if_pos hc]
    have hmem : ∀ c ∈ r.filter (fun c => !(c == ':')), (!(c == ':')) = true :=
      fun c hc' => (List.mem_filter.mp hc').2
    exact (List.filter_eq_self.mpr hmem).symm
  · rw [hout, if_neg hc] at hlen
    exact absurd hlen hc

/-- Witness for C4 at a concrete canonicalized word. -/
theorem claim_C4_witness :
    (['a', 'b'] : List Char) = ['a', 'b'].filter (fun c => !(c == ':')) :=
  (claim_C4_pruning sampleAtomTable ['a', 'b'] ['a', 'b'] (by decide)).1 (by decide)

/-- Squash of a cons. -/
theorem squash_cons (atoms : AtomMap) (c : Char) (l : List Char) :
    squash atoms (c :: l) =
      if isPunct atoms c = false then c :: squash atoms l else squash atoms l := by
  simp only [squash, List.filter_cons]
  cases h : isPunct atoms c <;> simp [h]

/-- Squash of an append. -/
theorem squash_append (atoms : AtomMap) (l1 l2 : List Char) :
    squash atoms (l1 ++ l2) = squash atoms l1 ++ squash atoms l2 := by
  simp [squash, List.filter_append]

/-- Removing the colon glyphs first does not change the squash, when the colon
is a punctuation glyph. -/
theorem squash_filter_colon (atoms : AtomMap) (hcolon : isPunct atoms ':' = true)
    (l : List Char) :
    squash atoms (l.filter (fun c => !(c == ':'))) = squash atoms l := by
  simp only [squash]
  rw [List.filter_comm]
  apply List.filter_eq_self.mpr
  intro c hc
  have h2 := (List.mem_filter.mp hc).2
  by_cases he : c = ':'
  · subst he
    rw [hcolon] at h2
    cases h2
  · simp [he]

/-- Claim C1: round-trip of the Canonicalizer.  Over an atom table in which
the inserted glyphs `'.'`, `':'`, `','` are punctuation (as `compute_atoms`
guarantees), squashing a successful `canonicalize` output reproduces exactly
the de-duplicated, punctuation-free sequence of Steps 1-2:
`squash (canonicalize s) = dedup (squash s)`. -/
theorem claim_C1_roundtrip (atoms : AtomMap) (s out : List Char)
    (hdot : isPunct atoms '.' = true) (hcolon : isPunct atoms ':' = true)
    (hcomma : isPunct atoms ',' = true)
    (h : canonicalize atoms s = .ok out) :
    dedup atoms none (squash atoms s) = .ok (squash atoms out) := by
  obtain ⟨r, hr, hout⟩ := canonicalize_ok_inv atoms s out h
  obtain ⟨d, first, rest, a, body, hd, hcons, ha, hloop, hrval⟩ := canonCore_ok_inv atoms s r hr
  have hdmem : ∀ c ∈ d, c ∈ squash atoms s := dedup_mem atoms _ none d hd
  have hdnp : ∀ c ∈ d, isPunct atoms c = false :=
    fun c hc => ((mem_squash atoms s c).mp (hdmem c hc)).2
  have hfirstnp : isPunct atoms first = false := hdnp first (by rw [hcons]; simp)
  have hrestnp : ∀ c ∈ rest, isPunct atoms c = false :=
    fun c hc => hdnp c (by rw [hcons]; simp [hc])
  have hbody : squash atoms body = rest := by
    rw [insLoop_squash atoms hdot hcolon rest _ body hloop]
    exact squash_eq_self atoms rest hrestnp
  have hfb : squash atoms (first :: body) = first :: rest := by
    rw [squash_cons, if_pos hfirstnp, hbody]
  have hcsq : squash atoms [','] = [] := by
    rw [squash_cons, if_neg (by simp [hcomma])]
    rfl
  have hr_squash : squash atoms r = first :: rest := by
    rw [hrval]
    split_ifs
    · rw [squash_append, hfb, hcsq, List.append_nil]
    · exact hfb
  have hout_squash : squash atoms out = first :: rest := by
    rw [hout]
    split_ifs
    · rw [squash_filter_colon atoms hcolon r]
      exact hr_squash
    · exact hr_squash
  rw [hout_squash, ← hcons]
  exact hd

/-- Witness for C1 at a concrete input. -/
theorem claim_C1_witness :
    dedup sampleAtomTable none (squash sampleAtomTable ['p', 'a']) =
      .ok (squash sampleAtomTable ['p', 'a', ',']) :=
  claim_C1_roundtrip sampleAtomTable ['p', 'a'] ['p', 'a', ',']
    (by decide) (by decide) (by decide) (by decide)

/-- Claim C6: length monotonicity.  Over an atom table in which the colon
glyph is punctuation, the canonicalized output is at least as long as the
de-duplicated, punctuation-free string of Steps 1-2. -/
theorem claim_C6_length_mono (atoms : AtomMap) (s out d : List Char)
    (hcolon : isPunct atoms ':' = true)
    (h : canonicalize atoms s = .ok out)
    (hd : dedup atoms none (squash atoms s) = .ok d) :
    d.length ≤ out.length := by
  obtain ⟨r, hr, hout⟩ := canonicalize_ok_inv atoms s out h
  obtain ⟨d', first, rest, a, body, hd', hcons, ha, hloop, hrval⟩ := canonCore_ok_inv atoms s r hr
  rw [hd] at hd'
  injection hd' with hdd
  subst hdd
  subst hcons
  have hdmem : ∀ c ∈ first :: rest, c ∈ squash atoms s :=
    dedup_mem atoms _ none _ hd
  have hdnp : ∀ c ∈ first :: rest, isPunct atoms c = false :=
    fun c hc => ((mem_squash atoms s c).mp (hdmem c hc)).2
  have hrestnc : ∀ c ∈ rest, c ≠ ':' := by
    intro c hc he
    subst he
    have := hdnp ':' (by simp [hc])
    rw [hcolon] at this
    cases this
  have hfirstnc : ¬(first = ':') := by
    intro he
    have := hdnp first (by simp)
    rw [he, hcolon] at this
    cases this
  have hflen : rest.length ≤ ((body.filter (fun c => !(c == ':'))).length) :=
    insLoop_filter_length atoms rest _ body hrestnc hloop
  have hkey : (first :: rest).length ≤ ((r.filter (fun c => !(c == ':'))).length) := by
    rw [hrval]
    split_ifs
    · simp only [List.filter_append, List.filter_cons]
      simp [hfirstnc]
      omega
    · simp only [List.filter_cons]
      simp [hfirstnc]
      omega
  have hfle : ((r.filter (fun c => !(c == ':'))).length) ≤ r.length :=
    List.length_filter_le _ r
  rw [hout]
  split_ifs
  · exact hkey
  · omega

/-- Witness for C6 at a concrete input. -/
theorem claim_C6_witness :
    (['p', 'a'] : List Char).length ≤ (['p', 'a', ','] : List Char).length :=
  claim_C6_length_mono sampleAtomTable ['p', 'a'] ['p', 'a', ','] ['p', 'a']
    (by decide) (by decide) (by decide)

/-- Totality of `canonCore` when the squashed input is non-empty and every
glyph is in the atom table. -/
theorem canonCore_total (atoms : AtomMap) (s : List Char) (x : Char) (xs : List Char)
    (hsqs : squash atoms s = x :: xs)
    (hkeys : ∀ c ∈ s, (amLookup atoms c).isSome) :
    ∃ r, canonCore atoms s = .ok r := by
  have hkeys_sq : ∀ c ∈ squash atoms s, (amLookup atoms c).isSome :=
    fun c hc => hkeys c ((mem_squash atoms s c).mp hc).1
  rw [hsqs] at hkeys_sq
  obtain ⟨d, hd⟩ := dedup_total atoms (x :: xs) none hkeys_sq
  obtain ⟨a, d', ha, hdd⟩ := dedup_cons_none atoms x xs d hd
  subst hdd
  have hdm : ∀ y ∈ x :: d', y ∈ x :: xs := dedup_mem atoms _ none _ hd
  have hkeys_d : ∀ y ∈ d', (amLookup atoms y).isSome :=
    fun y hy => hkeys_sq y (hdm y (by simp [hy]))
  obtain ⟨body, hbody⟩ :=
    insLoop_total atoms d' ⟨x, a.type, a.type == "prefix", (x :: d').length⟩ hkeys_d
  unfold canonCore
  rw [hsqs]
  simp only [hd, ha, hbody]
  split_ifs
  · exact ⟨_, rfl⟩
  · exact ⟨_, rfl⟩

/-- Claim C10: partiality of `canonicalize` for inputs over the atom table.
An input all of whose glyphs are punctuation (in particular the empty input)
squashes to the empty string and fails with the `IndexError` raised when the
first glyph of the squashed string is read; an input with at least one
non-punctuation glyph returns normally.  So the error branch is unreachable
exactly when the squashed input is non-empty. -/
theorem claim_C10_partiality (atoms : AtomMap) (s : List Char)
    (hkeys : ∀ c ∈ s, (amLookup atoms c).isSome) :
    ((∀ c ∈ s, isPunct atoms c = true) → canonicalize atoms s = .error .indexError) ∧
    ((∃ c ∈ s, isPunct atoms c = false) → ∃ out, canonicalize atoms s = .ok out) := by
  constructor
  · intro hall
    have hsq : squash atoms s = [] := by
      apply List.filter_eq_nil_iff.mpr
      intro c hc
      simp [hall c hc]
    unfold canonicalize canonCore
    rw [hsq]
    rfl
  · intro hex
    obtain ⟨c, hc, hcp⟩ := hex
    have hcmem : c ∈ squash atoms s := (mem_squash atoms s c).mpr ⟨hc, hcp⟩
    cases hsqs : squash atoms s with
    | nil => rw [hsqs] at hcmem; cases hcmem
    | cons x xs =>
      obtain ⟨r, hr⟩ := canonCore_total atoms s x xs hsqs hkeys
      exact ⟨_, by unfold canonicalize; rw [hr]; rfl⟩

/-- Witness for C10: an all-punctuation input fails with the index error, an
input with a non-punctuation glyph succeeds. -/
theorem claim_C10_witness :
    canonicalize sampleAtomTable [':', ','] = .error .indexError ∧
    ∃ out, canonicalize sampleAtomTable ['a'] = .ok out :=
  ⟨(claim_C10_partiality sampleAtomTable [':', ','] (by decide)).1 (by decide),
   (claim_C10_partiality sampleAtomTable ['a'] (by decide)).2 ⟨'a', by decide, by decide⟩⟩

/-- Counterexample to C5 as stated: for the input `"ppa"` over the atom table
built from `sampleDecls` (where `'p'` has category `'prefix'` and `'a'`
category `'atom'`), the de-duplicated, punctuation-free representation is
`"pa"` — length exactly 2 and beginning with a Prefix glyph — yet the
canonical output is `"pa"`, which does not end with the comma glyph: the code
tests the length squashed in Step 1 (here 3), not the de-duplicated length. -/
theorem claim_C5_counterexample :
    dedup sampleAtomTable none (squash sampleAtomTable ['p', 'p', 'a']) = .ok ['p', 'a'] ∧
    (['p', 'a'] : List Char).length = 2 ∧
    (amLookup sampleAtomTable 'p').map Atom.type = some "prefix" ∧
    canonicalize sampleAtomTable ['p', 'p', 'a'] = .ok ['p', 'a'] ∧
    (['p', 'a'] : List Char).getLast? = some 'a' ∧ ('a' : Char) ≠ ',' := by
  decide

/-- Claim C5, amended: for every input whose punctuation-free representation
after Step 1 (before de-duplication) has length exactly 2 and whose first
glyph has category `'prefix'`, the canonical output ends with the comma
glyph. -/
theorem claim_C5_short_word_comma (atoms : AtomMap) (s out : List Char) (c z : Char)
    (a : Atom) (h : canonicalize atoms s = .ok out)
    (hsq : squash atoms s = [c, z])
    (ha : amLookup atoms c = some a) (hpfx : a.type = "prefix") :
    out.getLast? = some ',' := by
  obtain ⟨r, hr, hout⟩ := canonicalize_ok_inv atoms s out h
  obtain ⟨d, first, rest, a', body, hd, hcons, ha', hloop, hrval⟩ := canonCore_ok_inv atoms s r hr
  rw [hsq] at hd
  obtain ⟨a'', d', ha'', hdd⟩ := dedup_cons_none atoms c [z] d hd
  rw [hdd] at hcons
  injection hcons with hfc hrest
  subst hfc
  have hcond : (squash atoms s).length = 2 ∧
      (amLookup atoms c).map Atom.type = some "prefix" := by
    constructor
    · rw [hsq]
      rfl
    · simp [ha, hpfx]
  rw [if_pos hcond] at hrval
  have hfilter : ((c :: body) ++ [',']).filter (fun x => !(x == ':')) =
      ((c :: body).filter (fun x => !(x == ':'))) ++ [','] := by
    have hcm : List.filter (fun x => !(x == ':')) [','] = [','] := by decide
    cases hcb : (!(c == ':')) <;>
      simp [List.filter_cons, List.filter_append, hcb, hcm]
  rw [hout, hrval]
  split_ifs
  · rw [hfilter]
    exact List.getLast?_concat _
  · exact List.getLast?_concat _

/-- Witness for the amended C5 at a concrete input. -/
theorem claim_C5_witness :
    (['p', 'a', ','] : List Char).getLast? = some ',' :=
  claim_C5_short_word_comma sampleAtomTable ['p', 'a'] ['p', 'a', ','] 'p' 'a'
    ⟨"knowledge", "prefix"⟩ (by decide) (by decide) (by decide) rfl

/-- Lookup after the three punctuation injections. -/
theorem amLookup_injectPunct (m : AtomMap) (c : Char) :
    amLookup (injectPunct m) c =
      if ',' = c then some ⟨"primitive", "punctuation"⟩
      else if '.' = c then some ⟨"joinGlyph2", "punctuation"⟩
      else if ':' = c then some ⟨"joinGlyph1", "punctuation"⟩
      else amLookup m c := rfl

/-- The validation loop succeeds (returning the table unchanged) when every
`FONTMAP` glyph is covered. -/
theorem checkCover_ok_of_covered (m : AtomMap) :
    ∀ fm : List (String × Char), (∀ p ∈ fm, (amLookup m p.2).isSome) →
      checkCover fm m = .ok m := by
  intro fm
  induction fm with
  | nil => intro _; rfl
  | cons p rest ih =>
    intro h
    obtain ⟨n, g⟩ := p
    simp only [checkCover]
    rw [if_pos (h ⟨n, g⟩ (by simp))]
    exact ih (fun q hq => h q (by simp [hq]))

/-- A successful validation returns the table unchanged and certifies
coverage of every listed glyph. -/
theorem checkCover_ok_inv (m t : AtomMap) :
    ∀ fm : List (String × Char), checkCover fm m = .ok t →
      t = m ∧ ∀ p ∈ fm, (amLookup m p.2).isSome := by
  intro fm
  induction fm with
  | nil =>
    intro h
    injection h with h
    exact ⟨h.symm, by simp⟩
  | cons p rest ih =>
    intro h
    obtain ⟨n, g⟩ := p
    simp only [checkCover] at h
    by_cases hg : (amLookup m g).isSome
    · rw [if_pos hg] at h
      obtain ⟨ht, hall⟩ := ih h
      refine ⟨ht, ?_⟩
      intro q hq
      rcases List.mem_cons.mp hq with rfl | hmem
      · exact hg
      · exact hall q hmem
    · rw [if_neg hg] at h
      cases h

/-- With an uncovered `FONTMAP` glyph, the validation loop fails with a
`missing` error naming a concept whose glyph is uncovered. -/
theorem checkCover_missing (m : AtomMap) :
    ∀ fm : List (String × Char), (∃ p ∈ fm, amLookup m p.2 = none) →
      ∃ n g, (n, g) ∈ fm ∧ amLookup m g = none ∧
        checkCover fm m = .error (.missing n) := by
  intro fm
  induction fm with
  | nil =>
    intro h
    obtain ⟨p, hp, _⟩ := h
    cases hp
  | cons p rest ih =>
    intro h
    obtain ⟨n, g⟩ := p
    by_cases hg : (amLookup m g).isSome
    · have hrest : ∃ q ∈ rest, amLookup m q.2 = none := by
        obtain ⟨q, hq, hqn⟩ := h
        rcases List.mem_cons.mp hq with rfl | hmem
        · rw [hqn] at hg
          cases hg
        · exact ⟨q, hmem, hqn⟩
      obtain ⟨n', g', hmem, hnone, herr⟩ := ih hrest
      refine ⟨n', g', by simp [hmem], hnone, ?_⟩
      simp only [checkCover]
      rw [if_pos hg]
      exact herr
    · refine ⟨n, g, by simp, Option.not_isSome_iff_eq_none.mp hg, ?_⟩
      simp only [checkCover]
      rw [if_neg hg]

/-- Characterization of the keys of the table built by the comprehension of
`compute_atoms`: exactly the glyphs of the declared names, plus whatever the
accumulator already held. -/
theorem buildAtoms_mem :
    ∀ (l : List AtomDecl) (acc m : AtomMap), buildAtoms l acc = .ok m →
      ∀ c, (amLookup m c).isSome ↔
        ((∃ d ∈ l, fontmapLookup FONTMAP (casefold d.name) = some c) ∨
          (amLookup acc c).isSome) := by
  intro l
  induction l with
  | nil =>
    intro acc m h c
    simp only [buildAtoms] at h
    injection h with h
    subst h
    simp
  | cons d rest ih =>
    intro acc m h c
    simp only [buildAtoms] at h
    split at h
    · cases h
    · rename_i g hg
      have hrec := ih _ _ h c
      have hins : (amLookup (amInsert g ⟨d.name, d.atomType⟩ acc) c).isSome ↔
          (g = c ∨ (amLookup acc c).isSome) := by
        simp only [amInsert, amLookup]
        by_cases hgc : g = c <;> simp [hgc]
      rw [hins] at hrec
      rw [hrec]
      constructor
      · rintro (⟨d', hd', hfd'⟩ | hgc | hacc)
        · exact Or.inl ⟨d', by simp [hd'], hfd'⟩
        · exact Or.inl ⟨d, by simp, by rw [hg, hgc]⟩
        · exact Or.inr hacc
      · rintro (⟨d', hd', hfd'⟩ | hacc)
        · rcases List.mem_cons.mp hd' with rfl | hmem
          · refine Or.inr (Or.inl ?_)
            rw [hg] at hfd'
            injection hfd'
          · exact Or.inl ⟨d', hmem, hfd'⟩
        · exact Or.inr (Or.inr hacc)

/-- Claim C9: Atom Table validation.  For any declaration list whose
comprehension succeeds (producing base table `m`), the table after the three
injections holds `joinGlyph1`, `joinGlyph2`, `primitive` as Punctuation at
`':'`, `'.'`, `','`; its keys are exactly the declared atoms' glyphs plus
those three; `compute_atoms` returns exactly this table when every `FONTMAP`
glyph is covered, a successful return certifies full coverage, and an
uncovered glyph makes it fail with an error naming a missing concept. -/
theorem claim_C9_atom_table (l : List AtomDecl) (m : AtomMap)
    (hb : buildAtoms l [] = .ok m) :
    (amLookup (injectPunct m) ':' = some ⟨"joinGlyph1", "punctuation"⟩ ∧
     amLookup (injectPunct m) '.' = some ⟨"joinGlyph2", "punctuation"⟩ ∧
     amLookup (injectPunct m) ',' = some ⟨"primitive", "punctuation"⟩) ∧
    (∀ c, (amLookup (injectPunct m) c).isSome ↔
      ((∃ d ∈ l, fontmapLookup FONTMAP (casefold d.name) = some c) ∨
        c = ':' ∨ c = '.' ∨ c = ',')) ∧
    ((∀ p ∈ FONTMAP, (amLookup (injectPunct m) p.2).isSome) →
      computeAtoms l = .ok (injectPunct m)) ∧
    (∀ t, computeAtoms l = .ok t →
      t = injectPunct m ∧ ∀ p ∈ FONTMAP, (amLookup t p.2).isSome) ∧
    ((∃ p ∈ FONTMAP, amLookup (injectPunct m) p.2 = none) →
      ∃ n g, (n, g) ∈ FONTMAP ∧ amLookup (injectPunct m) g = none ∧
        computeAtoms l = .error (.missing n)) := by
  have hcompute : computeAtoms l = checkCover FONTMAP (injectPunct m) := by
    unfold computeAtoms
    rw [hb]
  refine ⟨⟨rfl, rfl, rfl⟩, ?_, ?_, ?_, ?_⟩
  · intro c
    rw [amLookup_injectPunct]
    by_cases h1 : ',' = c
    · subst h1
      simp
    · rw [if_neg h1]
      by_cases h2 : '.' = c
      · subst h2
        simp
      · rw [if_neg h2]
        by_cases h3 : ':' = c
        · subst h3
          simp
        · rw [if_neg h3]
          rw [buildAtoms_mem l [] m hb c]
          simp only [amLookup, Option.isSome_none, Bool.false_eq_true, or_false]
          constructor
          · exact Or.inl
          · rintro (hd | rfl | rfl | rfl)
            · exact hd
            · exact absurd rfl h3
            · exact absurd rfl h2
            · exact absurd rfl h1
  · intro hcov
    rw [hcompute]
    exact checkCover_ok_of_covered (injectPunct m) FONTMAP hcov
  · intro t ht
    rw [hcompute] at ht
    obtain ⟨rfl, hall⟩ := checkCover_ok_inv (injectPunct m) t FONTMAP ht
    exact ⟨rfl, hall⟩
  · intro hex
    obtain ⟨n, g, hmem, hnone, herr⟩ := checkCover_missing (injectPunct m) FONTMAP hex
    refine ⟨n, g, hmem, hnone, ?_⟩
    rw [hcompute]
    exact herr

/-- The base table built from `sampleDecls` before the punctuation
injections. -/
def sampleBase : AtomMap :=
  match buildAtoms sampleDecls [] with
  | .ok m => m
  | .error _ => []

/-- Witness for C9: `compute_atoms` succeeds on `sampleDecls`, returning the
injected table. -/
theorem claim_C9_witness :
    computeAtoms sampleDecls = .ok (injectPunct sampleBase) :=
  (claim_C9_atom_table sampleDecls sampleBase (by decide)).2.2.1 (by decide)

/-- Every entry of the shared word map is stored under its own case-folded
name (true of the map `compute_words` builds, and preserved by resolution). -/
def Keyed (m : WordMap) : Prop :=
  ∀ k w, wmLookup m k = some w → casefold w.name = k

/-- The entries of `m'` all existed in `m` with the same name and component
list (resolution only fills in `atoms` fields of existing entries). -/
def SkelLe (m m' : WordMap) : Prop :=
  ∀ k w', wmLookup m' k = some w' →
    ∃ w, wmLookup m k = some w ∧ w'.name = w.name ∧ w'.components = w.components

theorem skelLe_refl (m : WordMap) : SkelLe m m :=
  fun _ w' h => ⟨w', h, rfl, rfl⟩

theorem skelLe_trans {a b c : WordMap} (h1 : SkelLe a b) (h2 : SkelLe b c) :
    SkelLe a c := by
  intro k w' h
  obtain ⟨w2, hb, hn2, hc2⟩ := h2 k w' h
  obtain ⟨w1, ha, hn1, hc1⟩ := h1 k w2 hb
  exact ⟨w1, ha, hn2.trans hn1, hc2.trans hc1⟩

theorem keyed_of_skelLe {m m' : WordMap} (h : SkelLe m m') (hk : Keyed m) :
    Keyed m' := by
  intro k w' hl
  obtain ⟨w, hm, hn, _⟩ := h k w' hl
  rw [hn]
  exact hk k w hm

/-- Lookup after a dict assignment. -/
theorem wmLookup_insert (k : String) (v : Word) (m : WordMap) (c : String) :
    wmLookup (wmInsert k v m) c = if k = c then some v else wmLookup m c := rfl

/-- The initial word map is keyed by case-folded names. -/
theorem buildWordsAux_keyed :
    ∀ (decls : List WordDecl) (acc : WordMap), Keyed acc →
      Keyed (buildWordsAux decls acc) := by
  intro decls
  induction decls with
  | nil => intro acc h; exact h
  | cons d rest ih =>
    intro acc h
    apply ih
    intro k w hl
    rw [wmLookup_insert] at hl
    by_cases hd : casefold d.name = k
    · rw [if_pos hd] at hl
      injection hl with hl
      rw [← hl]
      exact hd
    · rw [if_neg hd] at hl
      exact h k w hl

theorem buildWords_keyed (decls : List WordDecl) : Keyed (buildWords decls) :=
  buildWordsAux_keyed decls [] (fun k w h => by cases h)

/-- Skeleton preservation through resolution: a successful `create_word` (and
its component loop) never adds or renames entries — it only replaces `atoms`
fields of entries that were already present. -/
theorem createWord_skel :
    ∀ (fuel : Nat),
      (∀ (word : Word) (words : WordMap) (atoms : AtomMap) (r : ResOut),
        Keyed words → wmLookup words (casefold word.name) = some word →
        createWord fuel word words atoms = .ok r → SkelLe words r.words) ∧
      (∀ (parts : List String) (words : WordMap) (atoms : AtomMap) (r : ResOut),
        Keyed words → resolveParts fuel parts words atoms = .ok r →
        SkelLe words r.words) := by
  intro fuel
  induction fuel with
  | zero =>
    have hcw : ∀ (word : Word) (words : WordMap) (atoms : AtomMap) (r : ResOut),
        Keyed words → wmLookup words (casefold word.name) = some word →
        createWord 0 word words atoms = .ok r → SkelLe words r.words := by
      intro word words atoms r _ _ h
      simp only [createWord] at h
      split at h
      · injection h with h
        rw [← h]
        exact skelLe_refl words
      · cases h
    refine ⟨hcw, ?_⟩
    intro parts
    induction parts with
    | nil =>
      intro words atoms r _ h
      injection h with h
      rw [← h]
      exact skelLe_refl words
    | cons part rest ih =>
      intro words atoms r hk h
      simp only [resolveParts, resolvePartsF] at h
      split at h
      · split at h
        · cases h
        · rename_i r2 h2
          injection h with h
          rw [← h]
          exact ih words atoms r2 hk h2
      · split at h
        · cases h
        · rename_i subword hsub
          split at h
          · cases h
          · rename_i r1 h1
            split at h
            · cases h
            · rename_i r2 h2
              injection h with h
              rw [← h]
              have hw : wmLookup words (casefold subword.name) = some subword := by
                rw [hk _ _ hsub]
                exact hsub
              have hs1 : SkelLe words r1.words := hcw subword words atoms r1 hk hw h1
              have hs2 : SkelLe r1.words r2.words :=
                ih r1.words atoms r2 (keyed_of_skelLe hs1 hk) h2
              exact skelLe_trans hs1 hs2
  | succ fuel ihf =>
    have hcw : ∀ (word : Word) (words : WordMap) (atoms : AtomMap) (r : ResOut),
        Keyed words → wmLookup words (casefold word.name) = some word →
        createWord (fuel + 1) word words atoms = .ok r → SkelLe words r.words := by
      intro word words atoms r hk hw h
      simp only [createWord] at h
      split at h
      · injection h with h
        rw [← h]
        exact skelLe_refl words
      · rename_i hatoms
        split at h
        · cases h
        · rename_i r1 h1
          split at h
          · cases h
          · rename_i s hs
            injection h with h
            rw [← h]
            have h1' : SkelLe words r1.words := ihf.2 word.components words atoms r1 hk h1
            intro k w'' hl
            simp only [wmLookup_insert] at hl
            by_cases hkey : casefold word.name = k
            · rw [if_pos hkey] at hl
              injection hl with hl
              refine ⟨word, ?_, ?_, ?_⟩
              · rw [← hkey]
                exact hw
              · rw [← hl]
              · rw [← hl]
            · rw [if_neg hkey] at hl
              exact h1' k w'' hl
    refine ⟨hcw, ?_⟩
    intro parts
    induction parts with
    | nil =>
      intro words atoms r _ h
      injection h with h
      rw [← h]
      exact skelLe_refl words
    | cons part rest ih =>
      intro words atoms r hk h
      simp only [resolveParts, resolvePartsF] at h
      split at h
      · split at h
        · cases h
        · rename_i r2 h2
          injection h with h
          rw [← h]
          exact ih words atoms r2 hk h2
      · split at h
        · cases h
        · rename_i subword hsub
          split at h
          · cases h
          · rename_i r1 h1
            split at h
            · cases h
            · rename_i r2 h2
              injection h with h
              rw [← h]
              have hw : wmLookup words (casefold subword.name) = some subword := by
                rw [hk _ _ hsub]
                exact hsub
              have hs1 : SkelLe words r1.words := hcw subword words atoms r1 hk hw h1
              have hs2 : SkelLe r1.words r2.words :=
                ih r1.words atoms r2 (keyed_of_skelLe hs1 hk) h2
              exact skelLe_trans hs1 hs2

/-- The component loop decomposes over list append: processing `l1 ++ l2` is
processing `l1`, then processing `l2` from the map `l1` produced, with the
glyphs and ghost logs concatenated. -/
theorem resolvePartsF_append (f : Word → WordMap → Except WordErr ResOut) :
    ∀ (l1 l2 : List String) (words : WordMap),
      resolvePartsF f (l1 ++ l2) words =
        (match resolvePartsF f l1 words with
         | .error e => .error e
         | .ok r1 =>
           match resolvePartsF f l2 r1.words with
           | .error e => .error e
           | .ok r2 => .ok ⟨r1.glyphs ++ r2.glyphs, r2.words,
                            r1.refs ++ r2.refs, r1.computed ++ r2.computed⟩) := by
  intro l1
  induction l1 with
  | nil =>
    intro l2 words
    simp only [List.nil_append, resolvePartsF]
    cases h : resolvePartsF f l2 words with
    | error e => rfl
    | ok r2 => cases r2; rfl
  | cons part rest ih =>
    intro l2 words
    simp only [List.cons_append, resolvePartsF, List.append_eq]
    cases hf : fontmapLookup FONTMAP (casefold part) with
    | some ch =>
      dsimp only
      rw [ih]
      cases h1 : resolvePartsF f rest words with
      | error e => rfl
      | ok r1 =>
        dsimp only
        cases h2 : resolvePartsF f l2 r1.words with
        | error e => rfl
        | ok r2 =>
          dsimp only
          simp
    | none =>
      dsimp only
      cases hl : wmLookup words (casefold part) with
      | none => rfl
      | some subword =>
        dsimp only
        cases hs : f subword words with
        | error e => rfl
        | ok r1 =>
          dsimp only
          rw [ih]
          cases h1 : resolvePartsF f rest r1.words with
          | error e => rfl
          | ok r2 =>
            dsimp only
            cases h2 : resolvePartsF f l2 r2.words with
            | error e => rfl
            | ok r3 =>
              dsimp only
              simp

/-- Every component examined by a successful component loop was, at the loop's
start, either a `FONTMAP` concept or a key of the shared word map. -/
theorem resolveParts_known (fuel : Nat) :
    ∀ (parts : List String) (words : WordMap) (atoms : AtomMap) (r : ResOut),
      Keyed words → resolveParts fuel parts words atoms = .ok r →
      ∀ part ∈ parts,
        (fontmapLookup FONTMAP (casefold part)).isSome ∨
          (wmLookup words (casefold part)).isSome := by
  intro parts
  induction parts with
  | nil =>
    intro words atoms r _ _ part hp
    cases hp
  | cons part rest ih =>
    intro words atoms r hk h q hq
    simp only [resolveParts, resolvePartsF] at h
    split at h
    · rename_i ch hf
      rcases List.mem_cons.mp hq with rfl | hmem
      · rw [hf]
        exact Or.inl rfl
      · split at h
        · cases h
        · rename_i r2 h2
          exact ih words atoms r2 hk h2 q hmem
    · rename_i hf
      split at h
      · cases h
      · rename_i subword hsub
        rcases List.mem_cons.mp hq with rfl | hmem
        · rw [hsub]
          exact Or.inr rfl
        · split at h
          · cases h
          · rename_i r1 h1
            split at h
            · cases h
            · rename_i r2 h2
              have hw : wmLookup words (casefold subword.name) = some subword := by
                rw [hk _ _ hsub]
                exact hsub
              have hs1 : SkelLe words r1.words :=
                (createWord_skel fuel).1 subword words atoms r1 hk hw h1
              rcases ih r1.words atoms r2 (keyed_of_skelLe hs1 hk) h2 q hmem with hfm | hlk
              · exact Or.inl hfm
              · right
                cases hlq : wmLookup r1.words (casefold q) with
                | none => rw [hlq] at hlk; cases hlk
                | some w' =>
                  obtain ⟨w, hw', _, _⟩ := hs1 (casefold q) w' hlq
                  rw [hw']
                  rfl

/-- Claim C8, amended.  Forward direction: while resolving a word's
components, if every component before some position resolved successfully and
the component at that position is, after case-folding, neither a key of the
Concept-Glyph Map nor a key of the (current) shared word map, `create_word`
fails with the Lookup error naming that component.  Converse direction: if
`create_word` returns a glyph string for an unresolved word, then every one of
the word's components was either a known concept or a declared word name.
(As the counterexample shows, the unqualified converse of the original claim
is false: resolution can still fail on a nested reference even when every
direct component is known.) -/
theorem claim_C8_unresolvable :
    (∀ (fuel : Nat) (word : Word) (words : WordMap) (atoms : AtomMap)
        (pre rest : List String) (part : String) (r : ResOut),
      word.atoms = none →
      word.components = pre ++ part :: rest →
      resolveParts fuel pre words atoms = .ok r →
      fontmapLookup FONTMAP (casefold part) = none →
      wmLookup r.words (casefold part) = none →
      createWord (fuel + 1) word words atoms = .error (.lookupError (casefold part))) ∧
    (∀ (fuel : Nat) (word : Word) (words : WordMap) (atoms : AtomMap) (r : ResOut),
      Keyed words → word.atoms = none →
      createWord fuel word words atoms = .ok r →
      ∀ part ∈ word.components,
        (fontmapLookup FONTMAP (casefold part)).isSome ∨
          (wmLookup words (casefold part)).isSome) := by
  constructor
  · intro fuel word words atoms pre rest part r hatoms hcomps hpre hfm hlk
    simp only [createWord, hatoms, hcomps]
    rw [resolvePartsF_append]
    simp only [resolveParts] at hpre
    rw [hpre]
    simp only [resolvePartsF, hfm, hlk]
  · intro fuel word words atoms r hk hatoms h
    cases fuel with
    | zero =>
      simp only [createWord] at h
      split at h
      · rename_i s hsome
        rw [hatoms] at hsome
        cases hsome
      · cases h
    | succ fuel =>
      simp only [createWord] at h
      split at h
      · rename_i s hsome
        rw [hatoms] at hsome
        cases hsome
      · split at h
        · cases h
        · rename_i r1 h1
          split at h
          · cases h
          · exact resolveParts_known fuel word.components words atoms r1 hk h1

/-- Witness for the amended C8: a direct unresolvable component fails with the
Lookup error naming it, and a successful resolution certifies its components
known. -/
theorem claim_C8_witness :
    createWord 1 ⟨"w", [], ["zzz"], none⟩ (buildWords [⟨"w", [], ["zzz"]⟩])
        sampleAtomTable = .error (.lookupError "zzz") ∧
    (∀ part ∈ (Word.mk "Sub" [] ["truth"] none).components,
      (fontmapLookup FONTMAP (casefold part)).isSome ∨
        (wmLookup (buildWords [⟨"Sub", [], ["truth"]⟩]) (casefold part)).isSome) := by
  constructor
  · exact claim_C8_unresolvable.1 0 ⟨"w", [], ["zzz"], none⟩
      (buildWords [⟨"w", [], ["zzz"]⟩]) sampleAtomTable [] [] "zzz"
      ⟨[], buildWords [⟨"w", [], ["zzz"]⟩], [], []⟩ rfl rfl rfl (by decide) (by decide)
  · exact claim_C8_unresolvable.2 1 ⟨"Sub", [], ["truth"], none⟩
      (buildWords [⟨"Sub", [], ["truth"]⟩]) sampleAtomTable
      ⟨['a'], wmInsert "sub" ⟨"Sub", [], ["truth"], some ['a']⟩
        (buildWords [⟨"Sub", [], ["truth"]⟩]), [], ["sub"]⟩
      (buildWords_keyed _) rfl (by decide)

/-- Counterexample to C8 as stated: in a declaration set where word `w` has
the single component `v` and word `v` has the unresolvable component `zzz`,
every component of `w` is the name of a declared word, yet `create_word` on
`w` does not return a glyph string — it fails, with a Lookup error naming the
nested reference `zzz`. -/
theorem claim_C8_counterexample :
    (∀ part ∈ (Word.mk "w" [] ["v"] none).components,
      (fontmapLookup FONTMAP (casefold part)).isSome ∨
        (wmLookup (buildWords [⟨"w", [], ["v"]⟩, ⟨"v", [], ["zzz"]⟩])
          (casefold part)).isSome) ∧
    createWord 5 ⟨"w", [], ["v"], none⟩
        (buildWords [⟨"w", [], ["v"]⟩, ⟨"v", [], ["zzz"]⟩]) sampleAtomTable =
      .error (.lookupError "zzz") := by
  decide

/-- The map resolves word `k` to glyph string `s`. -/
def ResolvedTo (m : WordMap) (k : String) (s : List Char) : Prop :=
  ∃ w, wmLookup m k = some w ∧ w.atoms = some s

/-- The map holds word `k` with the unresolved sentinel. -/
def UnresolvedAt (m : WordMap) (k : String) : Prop :=
  ∃ w, wmLookup m k = some w ∧ w.atoms = none

/-- Resolutions are preserved (with their values) from `m` to `m'`. -/
def ResLe (m m' : WordMap) : Prop :=
  ∀ k s, ResolvedTo m k s → ResolvedTo m' k s

/-- A ranking function witnessing acyclicity of the word-reference graph:
every non-concept component reference strictly decreases the rank. -/
def Ranked (rank : String → Nat) (m : WordMap) : Prop :=
  ∀ k w, wmLookup m k = some w → ∀ part ∈ w.components,
    fontmapLookup FONTMAP (casefold part) = none →
      rank (casefold part) < rank k

theorem resLe_refl (m : WordMap) : ResLe m m := fun _ _ h => h

theorem resLe_trans {a b c : WordMap} (h1 : ResLe a b) (h2 : ResLe b c) :
    ResLe a c := fun k s h => h2 k s (h1 k s h)

theorem resolved_not_unres {m : WordMap} {k : String} {s : List Char}
    (h1 : ResolvedTo m k s) (h2 : UnresolvedAt m k) : False := by
  obtain ⟨w1, hl1, ha1⟩ := h1
  obtain ⟨w2, hl2, ha2⟩ := h2
  rw [hl1] at hl2
  injection hl2 with h12
  rw [h12, ha2] at ha1
  cases ha1

theorem unres_back {m m' : WordMap} {k : String} (hs : SkelLe m m')
    (hm : ResLe m m') (h : UnresolvedAt m' k) : UnresolvedAt m k := by
  obtain ⟨w', hl', ha'⟩ := h
  obtain ⟨w, hl, _, _⟩ := hs k w' hl'
  cases haw : w.atoms with
  | none => exact ⟨w, hl, haw⟩
  | some s =>
    exact absurd (hm k s ⟨w, hl, haw⟩) (fun hres => resolved_not_unres hres ⟨w', hl', ha'⟩)

theorem ranked_of_skelLe {rank : String → Nat} {m m' : WordMap}
    (h : SkelLe m m') (hr : Ranked rank m) : Ranked rank m' := by
  intro k w' hl part hp hf
  obtain ⟨w, hm, _, hc⟩ := h k w' hl
  exact hr k w hm part (hc ▸ hp) hf

theorem resolvedTo_insert_ne {key k : String} (v : Word) (m : WordMap)
    (hne : ¬(key = k)) (s : List Char) :
    ResolvedTo (wmInsert key v m) k s ↔ ResolvedTo m k s := by
  unfold ResolvedTo
  constructor
  · rintro ⟨w, hl, ha⟩
    rw [wmLookup_insert, if_neg hne] at hl
    exact ⟨w, hl, ha⟩
  · rintro ⟨w, hl, ha⟩
    refine ⟨w, ?_, ha⟩
    rw [wmLookup_insert, if_neg hne]
    exact hl

/-- The facts established by one successful resolution step from map `words`
to result `r`: resolutions are preserved; the ghost `computed` log has no
duplicates, lists only words that were unresolved before and are resolved
after, and every newly resolved word is logged; every ghost `refs` entry
records a string the final map agrees with.  `compP`/`refsP` bound the ranks
of logged names. -/
structure RunFacts (words : WordMap) (r : ResOut)
    (compP refsP : String → Prop) : Prop where
  mono : ResLe words r.words
  nodup : r.computed.Nodup
  compUnres : ∀ k ∈ r.computed, UnresolvedAt words k
  compRes : ∀ k ∈ r.computed, ∃ s, ResolvedTo r.words k s
  compRank : ∀ k ∈ r.computed, compP k
  newRes : ∀ k s, ResolvedTo r.words k s → ResolvedTo words k s ∨ k ∈ r.computed
  refsRes : ∀ n s, (n, s) ∈ r.refs → ResolvedTo r.words n s
  refsRank : ∀ n s, (n, s) ∈ r.refs → refsP n

/-- Facts of a step that changed nothing and logged nothing. -/
theorem runFacts_trivial (words : WordMap) (g : List Char) (P Q : String → Prop) :
    RunFacts words ⟨g, words, [], []⟩ P Q where
  mono := resLe_refl words
  nodup := List.nodup_nil
  compUnres := fun k hk => absurd hk (List.not_mem_nil k)
  compRes := fun k hk => absurd hk (List.not_mem_nil k)
  compRank := fun k hk => absurd hk (List.not_mem_nil k)
  newRes := fun _ _ h => Or.inl h
  refsRes := fun n s h => absurd h (List.not_mem_nil (n, s))
  refsRank := fun n s h => absurd h (List.not_mem_nil (n, s))

/-- Facts of the component loop, given the facts of `create_word` at the same
recursion budget. -/
theorem resolveParts_facts_of_cw (fuel : Nat)
    (hcw : ∀ (rank : String → Nat) (word : Word) (words : WordMap) (atoms : AtomMap)
        (r : ResOut),
      Keyed words → Ranked rank words →
      wmLookup words (casefold word.name) = some word →
      createWord fuel word words atoms = .ok r →
      RunFacts words r (fun k => rank k ≤ rank (casefold word.name))
        (fun n => rank n < rank (casefold word.name)) ∧
      ResolvedTo r.words (casefold word.name) r.glyphs) :
    ∀ (rank : String → Nat) (R : Nat) (parts : List String) (words : WordMap)
      (atoms : AtomMap) (r : ResOut),
      Keyed words → Ranked rank words →
      (∀ part ∈ parts, fontmapLookup FONTMAP (casefold part) = none →
        rank (casefold part) < R) →
      resolveParts fuel parts words atoms = .ok r →
      RunFacts words r (fun k => rank k < R) (fun n => rank n < R) := by
  intro rank R parts
  induction parts with
  | nil =>
    intro words atoms r _ _ _ h
    injection h with h
    rw [← h]
    exact runFacts_trivial words [] _ _
  | cons part rest ihp =>
    intro words atoms r hk hrank HB h
    simp only [resolveParts, resolvePartsF] at h
    split at h
    · rename_i ch hf
      split at h
      · cases h
      · rename_i r2 h2
        injection h with h
        have F2 := ihp words atoms r2 hk hrank
          (fun q hq hfq => HB q (by simp [hq]) hfq) h2
        rw [← h]
        exact {
          mono := F2.mono
          nodup := F2.nodup
          compUnres := F2.compUnres
          compRes := F2.compRes
          compRank := F2.compRank
          newRes := F2.newRes
          refsRes := F2.refsRes
          refsRank := F2.refsRank }
    · rename_i hf
      split at h
      · cases h
      · rename_i subword hsub
        split at h
        · cases h
        · rename_i r1 h1
          split at h
          · cases h
          · rename_i r2 h2
            injection h with h
            have hkeq : casefold subword.name = casefold part := hk _ _ hsub
            have hwsub : wmLookup words (casefold subword.name) = some subword := by
              rw [hkeq]
              exact hsub
            obtain ⟨F1, hres1⟩ := hcw rank subword words atoms r1 hk hrank hwsub h1
            rw [hkeq] at F1 hres1
            have hrankpart : rank (casefold part) < R := HB part (by simp) hf
            have skel1 : SkelLe words r1.words :=
              (createWord_skel fuel).1 subword words atoms r1 hk hwsub h1
            have hk1 : Keyed r1.words := keyed_of_skelLe skel1 hk
            have hrank1 : Ranked rank r1.words := ranked_of_skelLe skel1 hrank
            have F2 := ihp r1.words atoms r2 hk1 hrank1
              (fun q hq hfq => HB q (by simp [hq]) hfq) h2
            rw [← h]
            refine { mono := resLe_trans F1.mono F2.mono, nodup := ?_, compUnres := ?_,
                     compRes := ?_, compRank := ?_, newRes := ?_, refsRes := ?_,
                     refsRank := ?_ }
            · rw [List.nodup_append]
              refine ⟨F1.nodup, F2.nodup, ?_⟩
              intro a ha1 ha2
              obtain ⟨s0, hres⟩ := F1.compRes a ha1
              exact resolved_not_unres hres (F2.compUnres a ha2)
            · intro k hkm
              rcases List.mem_append.mp hkm with h1m | h2m
              · exact F1.compUnres k h1m
              · exact unres_back skel1 F1.mono (F2.compUnres k h2m)
            · intro k hkm
              rcases List.mem_append.mp hkm with h1m | h2m
              · obtain ⟨s0, hres⟩ := F1.compRes k h1m
                exact ⟨s0, F2.mono k s0 hres⟩
              · exact F2.compRes k h2m
            · intro k hkm
              rcases List.mem_append.mp hkm with h1m | h2m
              · exact lt_of_le_of_lt (F1.compRank k h1m) hrankpart
              · exact F2.compRank k h2m
            · intro k s hres
              rcases F2.newRes k s hres with hres1' | hmem2
              · rcases F1.newRes k s hres1' with hres0 | hmem1
                · exact Or.inl hres0
                · exact Or.inr (List.mem_append.mpr (Or.inl hmem1))
              · exact Or.inr (List.mem_append.mpr (Or.inr hmem2))
            · intro n s hns
              rcases List.mem_cons.mp hns with heq | hmm
              · injection heq with hn hs'
                rw [hn, hs']
                exact F2.mono _ _ hres1
              · rcases List.mem_append.mp hmm with hr1 | hr2
                · exact F2.mono n s (F1.refsRes n s hr1)
                · exact F2.refsRes n s hr2
            · intro n s hns
              rcases List.mem_cons.mp hns with heq | hmm
              · injection heq with hn _
                rw [hn]
                exact hrankpart
              · rcases List.mem_append.mp hmm with hr1 | hr2
                · exact lt_trans (F1.refsRank n s hr1) hrankpart
                · exact F2.refsRank n s hr2

/-- Facts of a successful `create_word` run: resolutions are preserved, the
word itself ends up resolved to the returned glyph string, the `computed` log
is duplicate-free, logs only previously unresolved words (now resolved, with
ranks at most the word's), every newly resolved word is logged, and every
recorded reference agrees with the final map (with rank strictly below the
word's). -/
theorem createWord_facts_cw :
    ∀ (fuel : Nat) (rank : String → Nat) (word : Word) (words : WordMap)
      (atoms : AtomMap) (r : ResOut),
      Keyed words → Ranked rank words →
      wmLookup words (casefold word.name) = some word →
      createWord fuel word words atoms = .ok r →
      RunFacts words r (fun k => rank k ≤ rank (casefold word.name))
        (fun n => rank n < rank (casefold word.name)) ∧
      ResolvedTo r.words (casefold word.name) r.glyphs := by
  intro fuel
  induction fuel with
  | zero =>
    intro rank word words atoms r hk hrank hw h
    simp only [createWord] at h
    split at h
    · rename_i s hsome
      injection h with h
      rw [← h]
      exact ⟨runFacts_trivial words s _ _, ⟨word, hw, hsome⟩⟩
    · cases h
  | succ fuel ihf =>
    intro rank word words atoms r hk hrank hw h
    simp only [createWord] at h
    split at h
    · rename_i s hsome
      injection h with h
      rw [← h]
      exact ⟨runFacts_trivial words s _ _, ⟨word, hw, hsome⟩⟩
    · rename_i hatoms
      split at h
      · cases h
      · rename_i r1 h1
        split at h
        · cases h
        · rename_i s hs
          injection h with h
          have F1 := resolveParts_facts_of_cw fuel ihf rank (rank (casefold word.name))
            word.components words atoms r1 hk hrank
            (fun part hp hf => hrank _ word hw part hp hf) h1
          have skel1 : SkelLe words r1.words :=
            (createWord_skel fuel).2 word.components words atoms r1 hk h1
          have hkeyne : ∀ k : String, rank k < rank (casefold word.name) →
              ¬(casefold word.name = k) := by
            intro k hlt heq
            rw [heq] at hlt
            exact lt_irrefl _ hlt
          rw [← h]
          constructor
          · refine { mono := ?_, nodup := ?_, compUnres := ?_, compRes := ?_,
                     compRank := ?_, newRes := ?_, refsRes := ?_, refsRank := ?_ }
            · intro k s0 hres
              by_cases hkey : casefold word.name = k
              · exfalso
                obtain ⟨w0, hl0, ha0⟩ := hres
                rw [← hkey, hw] at hl0
                injection hl0 with hl0
                rw [← hl0, hatoms] at ha0
                cases ha0
              · exact (resolvedTo_insert_ne _ _ hkey s0).mpr (F1.mono k s0 hres)
            · rw [List.nodup_append]
              refine ⟨F1.nodup, List.nodup_singleton _, ?_⟩
              intro a ha1 ha2
              rw [List.mem_singleton] at ha2
              exact hkeyne a (F1.compRank a ha1) ha2.symm
            · intro k hkm
              rcases List.mem_append.mp hkm with h1m | h2m
              · exact F1.compUnres k h1m
              · rw [List.mem_singleton] at h2m
                rw [h2m]
                exact ⟨word, hw, hatoms⟩
            · intro k hkm
              rcases List.mem_append.mp hkm with h1m | h2m
              · obtain ⟨s0, hres⟩ := F1.compRes k h1m
                exact ⟨s0, (resolvedTo_insert_ne _ _
                  (hkeyne k (F1.compRank k h1m)) s0).mpr hres⟩
              · rw [List.mem_singleton] at h2m
                rw [h2m]
                exact ⟨s, ⟨{ word with atoms := some s },
                  by rw [wmLookup_insert, if_pos rfl], rfl⟩⟩
            · intro k hkm
              rcases List.mem_append.mp hkm with h1m | h2m
              · exact le_of_lt (F1.compRank k h1m)
              · rw [List.mem_singleton] at h2m
                rw [h2m]
            · intro k s0 hres
              by_cases hkey : casefold word.name = k
              · refine Or.inr (List.mem_append.mpr (Or.inr ?_))
                rw [List.mem_singleton]
                exact hkey.symm
              · rcases F1.newRes k s0
                  ((resolvedTo_insert_ne _ _ hkey s0).mp hres) with hres0 | hmem1
                · exact Or.inl hres0
                · exact Or.inr (List.mem_append.mpr (Or.inl hmem1))
            · intro n s0 hns
              exact (resolvedTo_insert_ne _ _
                (hkeyne n (F1.refsRank n s0 hns)) s0).mpr (F1.refsRes n s0 hns)
            · intro n s0 hns
              exact F1.refsRank n s0 hns
          · exact ⟨{ word with atoms := some s },
              by rw [wmLookup_insert, if_pos rfl], rfl⟩

/-- Every entry of the freshly built word map is unresolved. -/
theorem buildWordsAux_unres :
    ∀ (decls : List WordDecl) (acc : WordMap),
      (∀ k w, wmLookup acc k = some w → w.atoms = none) →
      ∀ k w, wmLookup (buildWordsAux decls acc) k = some w → w.atoms = none := by
  intro decls
  induction decls with
  | nil => intro acc h; exact h
  | cons d rest ih =>
    intro acc h
    apply ih
    intro k w hl
    rw [wmLookup_insert] at hl
    by_cases hd : casefold d.name = k
    · rw [if_pos hd] at hl
      injection hl with hl
      rw [← hl]
    · rw [if_neg hd] at hl
      exact h k w hl

theorem buildWords_unres (decls : List WordDecl) :
    ∀ k w, wmLookup (buildWords decls) k = some w → w.atoms = none :=
  buildWordsAux_unres decls [] (fun k w h => by cases h)

/-- Facts of the `compute_words` driver loop. -/
theorem computeWordsAux_facts (fuel : Nat) (rank : String → Nat) :
    ∀ (keys : List String) (words : WordMap) (atoms : AtomMap) (out : WordMap)
      (rl : List (String × List Char)) (cl : List String),
      Keyed words → Ranked rank words →
      computeWordsAux fuel keys words atoms = .ok (out, rl, cl) →
      RunFacts words ⟨[], out, rl, cl⟩ (fun _ => True) (fun _ => True) := by
  intro keys
  induction keys with
  | nil =>
    intro words atoms out rl cl _ _ h
    injection h with h
    injection h with h1 h2
    injection h2 with h2 h3
    rw [← h1, ← h2, ← h3]
    exact runFacts_trivial words [] _ _
  | cons k rest ih =>
    intro words atoms out rl cl hk hrank h
    simp only [computeWordsAux] at h
    split at h
    · cases h
    · rename_i word hwk
      split at h
      · cases h
      · rename_i r h1
        split at h
        · cases h
        · rename_i out2 rl2 cl2 h2
          injection h with h
          injection h with hout hrest
          injection hrest with hrl hcl
          have hww : wmLookup words (casefold word.name) = some word := by
            rw [hk _ _ hwk]
            exact hwk
          obtain ⟨F1, _⟩ := createWord_facts_cw fuel rank word words atoms r hk hrank hww h1
          have skel1 : SkelLe words r.words :=
            (createWord_skel fuel).1 word words atoms r hk hww h1
          have hk1 : Keyed r.words := keyed_of_skelLe skel1 hk
          have hrank1 : Ranked rank r.words := ranked_of_skelLe skel1 hrank
          have F2 := ih r.words atoms out2 rl2 cl2 hk1 hrank1 h2
          rw [← hout, ← hrl, ← hcl]
          refine { mono := resLe_trans F1.mono F2.mono, nodup := ?_, compUnres := ?_,
                   compRes := ?_, compRank := ?_, newRes := ?_, refsRes := ?_,
                   refsRank := ?_ }
          · rw [List.nodup_append]
            refine ⟨F1.nodup, F2.nodup, ?_⟩
            intro a ha1 ha2
            obtain ⟨s0, hres⟩ := F1.compRes a ha1
            exact resolved_not_unres hres (F2.compUnres a ha2)
          · intro q hqm
            rcases List.mem_append.mp hqm with h1m | h2m
            · exact F1.compUnres q h1m
            · exact unres_back skel1 F1.mono (F2.compUnres q h2m)
          · intro q hqm
            rcases List.mem_append.mp hqm with h1m | h2m
            · obtain ⟨s0, hres⟩ := F1.compRes q h1m
              exact ⟨s0, F2.mono q s0 hres⟩
            · exact F2.compRes q h2m
          · intro q _
            trivial
          · intro q s hres
            rcases F2.newRes q s hres with hres1' | hmem2
            · rcases F1.newRes q s hres1' with hres0 | hmem1
              · exact Or.inl hres0
              · exact Or.inr (List.mem_append.mpr (Or.inl hmem1))
            · exact Or.inr (List.mem_append.mpr (Or.inr hmem2))
          · intro n s hns
            rcases List.mem_append.mp hns with hr1 | hr2
            · exact F2.mono n s (F1.refsRes n s hr1)
            · exact F2.refsRes n s hr2
          · intro n s _
            trivial

/-- Claim C7: memoization consistency of the Word Resolver.  For every
declaration set whose reference graph is acyclic (witnessed by a ranking
function) and every successful `compute_words` run: the ghost `computed` log
(one entry per word whose body was actually run) has no duplicates — a shared
word's glyph string is computed exactly once; any two references to the same
word received the same glyph string; and every referenced word was computed
during the run (the first resolution replaced its unresolved sentinel) with
the received string stored in the final map. -/
theorem claim_C7_memoization (decls : List WordDecl) (atoms : AtomMap) (fuel : Nat)
    (rank : String → Nat) (out : WordMap) (rl : List (String × List Char))
    (cl : List String)
    (hrank : Ranked rank (buildWords decls))
    (h : computeWords decls atoms fuel = .ok (out, rl, cl)) :
    cl.Nodup ∧
    (∀ n s1 s2, (n, s1) ∈ rl → (n, s2) ∈ rl → s1 = s2) ∧
    (∀ n s, (n, s) ∈ rl → n ∈ cl ∧ ResolvedTo out n s) := by
  have hk := buildWords_keyed decls
  have F := computeWordsAux_facts fuel rank (dictKeys decls []) (buildWords decls)
    atoms out rl cl hk hrank h
  refine ⟨F.nodup, ?_, ?_⟩
  · intro n s1 s2 h1 h2
    obtain ⟨w1, hl1, ha1⟩ := F.refsRes n s1 h1
    obtain ⟨w2, hl2, ha2⟩ := F.refsRes n s2 h2
    rw [hl1] at hl2
    injection hl2 with h12
    rw [h12, ha2] at ha1
    injection ha1 with ha1
    exact ha1.symm
  · intro n s hns
    have hres := F.refsRes n s hns
    refine ⟨?_, hres⟩
    rcases F.newRes n s hres with hinit | hmem
    · exfalso
      obtain ⟨w, hlw, haw⟩ := hinit
      rw [buildWords_unres decls n w hlw] at haw
      cases haw
    · exact hmem

/-- A declaration set in which the word `Sub` is referenced as a sub-component
of the two different words `W1` and `W2`. -/
def demoDecls : List WordDecl :=
  [⟨"Sub", [], ["truth", "past_tense"]⟩,
   ⟨"W1", [], ["sub", "water"]⟩,
   ⟨"W2", [], ["sub", "heat"]⟩]

/-- A ranking function witnessing the acyclicity of `demoDecls`. -/
def demoRank : String → Nat := fun n => if n = "sub" then 0 else 1

/-- The word map produced by resolving `demoDecls` (shadowed unresolved
entries included, because dict assignment is modelled by prepending). -/
def demoOut : WordMap :=
  [("w2", ⟨"W2", [], ["sub", "heat"], some ['a', 'b', '.', 'z']⟩),
   ("w1", ⟨"W1", [], ["sub", "water"], some ['a', 'b', '.', '=']⟩),
   ("sub", ⟨"Sub", [], ["truth", "past_tense"], some ['a', 'b']⟩),
   ("w2", ⟨"W2", [], ["sub", "heat"], none⟩),
   ("w1", ⟨"W1", [], ["sub", "water"], none⟩),
   ("sub", ⟨"Sub", [], ["truth", "past_tense"], none⟩)]

theorem demoRanked : Ranked demoRank (buildWords demoDecls) := by
  have hb : buildWords demoDecls =
      [("w2", ⟨"W2", [], ["sub", "heat"], none⟩),
       ("w1", ⟨"W1", [], ["sub", "water"], none⟩),
       ("sub", ⟨"Sub", [], ["truth", "past_tense"], none⟩)] := by decide
  intro k w hl part hp hf
  rw [hb] at hl
  simp only [wmLookup] at hl
  by_cases h2 : "w2" = k
  · rw [if_pos h2] at hl
    injection hl with hl
    rw [← hl] at hp
    rw [← h2]
    rcases List.mem_cons.mp hp with rfl | hp2
    · exact (by decide : demoRank (casefold "sub") < demoRank "w2")
    · rcases List.mem_cons.mp hp2 with rfl | hp3
      · exact absurd hf (by decide)
      · cases hp3
  · rw [if_neg h2] at hl
    by_cases h1 : "w1" = k
    · rw [if_pos h1] at hl
      injection hl with hl
      rw [← hl] at hp
      rw [← h1]
      rcases List.mem_cons.mp hp with rfl | hp2
      · exact (by decide : demoRank (casefold "sub") < demoRank "w1")
      · rcases List.mem_cons.mp hp2 with rfl | hp3
        · exact absurd hf (by decide)
        · cases hp3
    · rw [if_neg h1] at hl
      by_cases h0 : "sub" = k
      · rw [if_pos h0] at hl
        injection hl with hl
        rw [← hl] at hp
        rcases List.mem_cons.mp hp with rfl | hp2
        · exact absurd hf (by decide)
        · rcases List.mem_cons.mp hp2 with rfl | hp3
          · exact absurd hf (by decide)
          · cases hp3
      · rw [if_neg h0] at hl
        cases hl

/-- Witness for C7 at the concrete run: `Sub` is computed once although
referenced by both `W1` and `W2`, and both references received the same glyph
string. -/
theorem claim_C7_witness :
    (["sub", "w1", "w2"] : List String).Nodup ∧
    (∀ n s1 s2,
      (n, s1) ∈ ([("sub", ['a', 'b']), ("sub", ['a', 'b'])] : List (String × List Char)) →
      (n, s2) ∈ ([("sub", ['a', 'b']), ("sub", ['a', 'b'])] : List (String × List Char)) →
      s1 = s2) :=
  have H := claim_C7_memoization demoDecls sampleAtomTable 20 demoRank demoOut
    [("sub", ['a', 'b']), ("sub", ['a', 'b'])] ["sub", "w1", "w2"]
    demoRanked (by decide)
  ⟨H.1, H.2.1⟩

end VaultDict
